import Mathlib

/-!
Verification of the duplicate-Position merge command
(`app/management/commands/merge_duplicate_positions.py`).

The command groups all `Position` rows by the identity key
`(person_id, org_id, semester, year)`, and for every group with more than
one member keeps the row with minimal `pos` (Python's `sorted` with key
`p.pos`, which is stable) and deletes the rest, refusing to delete any row
with `is_admin` set: in that case it raises `ValueError`, which aborts the
surrounding `transaction.atomic()` block, rolling back every deletion made
earlier in the same run.  With `--dry-run` the same decisions are computed
and counted but no deletion is issued and no transaction is opened.

The embedding below is shallow: the table of `Position` rows is a
`List Position` (in the enumeration order `Position.objects.all()` yields),
the run is a pure function from that list to a result plus the resulting
table, the `ValueError` is an `Except.error` carrying the violating group's
key and the number of admin rows among its deletion candidates, and the
transaction rollback is the fact that on error the resulting table is the
input table.
-/

namespace MergeDuplicatePositions

/-- One row of the `Position` table, with the fields the command reads:
`id` (primary key), the identity-key fields `person_id`, `org_id`,
`semester`, `year`, the ranking field `pos`, and the protection flag
`is_admin`. -/
structure Position where
  id : Nat
  person_id : Nat
  org_id : Nat
  semester : String
  year : Int
  pos : Int
  is_admin : Bool
deriving DecidableEq

/-- Identity key of a row: `(person_id, org_id, semester, year)`, the tuple
`find_duplicates` groups by. -/
abbrev GroupKey := Nat × Nat × String × Int

/-- The `group_key` tuple built in the loop of `find_duplicates`. -/
def group_key (p : Position) : GroupKey :=
  (p.person_id, p.org_id, p.semester, p.year)

/-- One step of building the `defaultdict(list)` of `find_duplicates`:
append `p` to the entry holding its key, or create that entry at the end.
An association list in key-insertion order models the Python dict, whose
iteration order is key-insertion order. -/
def insertGrouped (groups : List (GroupKey × List Position)) (p : Position) :
    List (GroupKey × List Position) :=
  match groups with
  | [] => [(group_key p, [p])]
  | (k, ps) :: rest =>
      if k = group_key p then (k, ps ++ [p]) :: rest
      else (k, ps) :: insertGrouped rest p

/-- `find_duplicates`: group every row by its identity key, then keep only
the keys with more than one row. -/
def find_duplicates (positions : List Position) :
    List (GroupKey × List Position) :=
  (positions.foldl insertGrouped []).filter (fun g => 1 < g.2.length)

/-- Insert a row into an already-built list, after every element whose `pos`
is ≤ its own: the insertion step of a stable sort on `pos`. -/
def insertSorted (p : Position) : List Position → List Position
  | [] => [p]
  | q :: qs => if q.pos ≤ p.pos then q :: insertSorted p qs else p :: q :: qs

/-- Model of `sorted(positions, key=lambda p: p.pos)`.  Python's `sorted` is
guaranteed stable, and this left-to-right insertion sort is stable for the
same comparison: rows with equal `pos` keep their input order. -/
def sortByPos (l : List Position) : List Position :=
  l.foldl (fun acc p => insertSorted p acc) []

/-- The data carried by the `ValueError` raised on an admin deletion
candidate: the group's identity key (the message embeds the group display
derived from it) and the number of admin rows among the candidates. -/
structure Violation where
  key : GroupKey
  admin_count : Nat
deriving DecidableEq

/-- The group loop of `_process_duplicates`.  Arguments mirror the Python
locals: the remaining groups, `total_merged`, `total_deleted`, and the ids
deleted so far in this run (always empty in dry-run mode, where the
deletion loop is skipped).  Returns the raised violation or the final
counters, together with the deleted ids. -/
def processGroups (dry_run : Bool) :
    List (GroupKey × List Position) → Nat → Nat → List Nat →
      Except Violation (Nat × Nat) × List Nat
  | [], total_merged, total_deleted, deleted_ids =>
      (.ok (total_merged, total_deleted), deleted_ids)
  | (gk, positions) :: rest, total_merged, total_deleted, deleted_ids =>
      if positions.length ≤ 1 then
        processGroups dry_run rest total_merged total_deleted deleted_ids
      else if 0 < ((sortByPos positions).tail.filter
          (fun p => p.is_admin)).length then
        (.error ⟨gk, ((sortByPos positions).tail.filter
          (fun p => p.is_admin)).length⟩, deleted_ids)
      else if dry_run then
        processGroups dry_run rest (total_merged + 1)
          (total_deleted + (sortByPos positions).tail.length) deleted_ids
      else
        processGroups dry_run rest (total_merged + 1)
          (total_deleted + (sortByPos positions).tail.length)
          (deleted_ids ++ (sortByPos positions).tail.map (fun p => p.id))

/-- The ids the run deletes when no violation occurs: for every group of
more than one row, all of the sorted group but its head. -/
def deletedPlan : List (GroupKey × List Position) → List Nat
  | [] => []
  | (_, positions) :: rest =>
      if positions.length ≤ 1 then deletedPlan rest
      else (sortByPos positions).tail.map (fun p => p.id) ++ deletedPlan rest

/-- `handle`: run the loop over `find_duplicates` of the current table.  In
mutating mode the loop runs inside `transaction.atomic()`, so a raised
violation rolls every deletion of the run back and the table is unchanged;
on success the deleted rows are gone.  In dry-run mode nothing is deleted.
Rows are deleted by primary key (`pos.delete()`). -/
def handle (dry_run : Bool) (state : List Position) :
    Except Violation (Nat × Nat) × List Position :=
  match processGroups dry_run (find_duplicates state) 0 0 [] with
  | (.error v, _) => (.error v, state)
  | (.ok s, deleted_ids) =>
      (.ok s, if dry_run then state
        else state.filter (fun p => ! decide (p.id ∈ deleted_ids)))

/-! ### Sorting lemmas -/

theorem insertSorted_perm (p : Position) (l : List Position) :
    List.Perm (insertSorted p l) (p :: l) := by
  induction l with
  | nil => simp [insertSorted]
  | cons q qs ih =>
      simp only [insertSorted]
      by_cases h : q.pos ≤ p.pos
      · rw [if_pos h]
        exact (ih.cons q).trans (List.Perm.swap p q qs)
      · rw [if_neg h]

theorem foldl_insertSorted_perm (l acc : List Position) :
    List.Perm (l.foldl (fun ac p => insertSorted p ac) acc) (acc ++ l) := by
  induction l generalizing acc with
  | nil => simp
  | cons p ps ih =>
      simp only [List.foldl_cons]
      refine (ih (insertSorted p acc)).trans ?_
      refine (List.Perm.append_right ps (insertSorted_perm p acc)).trans ?_
      exact List.perm_middle.symm

theorem sortByPos_perm (l : List Position) : List.Perm (sortByPos l) l := by
  simpa using foldl_insertSorted_perm l []

theorem sortByPos_length (l : List Position) :
    (sortByPos l).length = l.length :=
  (sortByPos_perm l).length_eq

theorem sortByPos_mem {p : Position} {l : List Position} :
    p ∈ sortByPos l ↔ p ∈ l :=
  (sortByPos_perm l).mem_iff

/-- The left-biased minimum combinator: what the head of the growing sorted
accumulator becomes when one more row is inserted. -/
def keepMin (a p : Position) : Position :=
  if a.pos ≤ p.pos then a else p

theorem head_foldl_insertSorted (l : List Position) (a : Position)
    (acc : List Position) :
    (l.foldl (fun ac q => insertSorted q ac) (a :: acc)).head? =
      some (l.foldl keepMin a) := by
  induction l generalizing a acc with
  | nil => simp
  | cons p ps ih =>
      simp only [List.foldl_cons, insertSorted, keepMin]
      by_cases h : a.pos ≤ p.pos
      · rw [if_pos h, if_pos h]
        exact ih a (insertSorted p acc)
      · rw [if_neg h, if_neg h]
        exact ih p (a :: acc)

theorem sortByPos_head (a : Position) (l : List Position) :
    (sortByPos (a :: l)).head? = some (l.foldl keepMin a) := by
  unfold sortByPos
  simp only [List.foldl_cons]
  exact head_foldl_insertSorted l a []

/-- The survivor `l.foldl keepMin a` splits `a :: l` into a strict-greater
prefix and a greater-or-equal suffix: it is the first row of minimal `pos`
in input order. -/
theorem foldl_keepMin_decomp (l : List Position) (a : Position) :
    ∃ l1 l2, a :: l = l1 ++ (l.foldl keepMin a) :: l2 ∧
      (∀ x ∈ l1, (l.foldl keepMin a).pos < x.pos) ∧
      (∀ x ∈ l2, (l.foldl keepMin a).pos ≤ x.pos) := by
  induction l generalizing a with
  | nil => exact ⟨[], [], by simp, by simp, by simp⟩
  | cons p ps ih =>
      simp only [List.foldl_cons]
      by_cases h : a.pos ≤ p.pos
      · have hk : keepMin a p = a := if_pos h
        rw [hk]
        obtain ⟨l1, l2, heq, h1, h2⟩ := ih a
        cases l1 with
        | nil =>
            simp only [List.nil_append] at heq
            have ha : a = ps.foldl keepMin a := (List.cons_eq_cons.mp heq).1
            have hl2 : ps = l2 := (List.cons_eq_cons.mp heq).2
            refine ⟨[], p :: l2, ?_, by simp, ?_⟩
            · simp only [List.nil_append]
              rw [← ha, hl2]
            · intro x hx
              rcases List.mem_cons.mp hx with hx | hx
              · subst hx; rw [← ha]; exact h
              · exact h2 x hx
        | cons b t =>
            simp only [List.cons_append] at heq
            have hab : a = b := (List.cons_eq_cons.mp heq).1
            have hps : ps = t ++ (ps.foldl keepMin a) :: l2 :=
              (List.cons_eq_cons.mp heq).2
            have hma : (ps.foldl keepMin a).pos < a.pos := by
              have hmb := h1 b (by simp)
              rwa [← hab] at hmb
            refine ⟨a :: p :: t, l2, ?_, ?_, h2⟩
            · simp only [List.cons_append]
              rw [← hps]
            · intro x hx
              rcases List.mem_cons.mp hx with hx | hx
              · subst hx; exact hma
              · rcases List.mem_cons.mp hx with hx | hx
                · subst hx; exact lt_of_lt_of_le hma h
                · exact h1 x (by simp [hx])
      · have hp : p.pos < a.pos := lt_of_not_le h
        have hk : keepMin a p = p := if_neg h
        rw [hk]
        obtain ⟨l1, l2, heq, h1, h2⟩ := ih p
        cases l1 with
        | nil =>
            simp only [List.nil_append] at heq
            have hpm : p = ps.foldl keepMin p := (List.cons_eq_cons.mp heq).1
            have hl2 : ps = l2 := (List.cons_eq_cons.mp heq).2
            refine ⟨[a], l2, ?_, ?_, h2⟩
            · simp only [List.cons_append, List.nil_append]
              rw [← hpm, hl2]
            · intro x hx
              have hx : x = a := List.mem_singleton.mp hx
              subst hx; rw [← hpm]; exact hp
        | cons b t =>
            simp only [List.cons_append] at heq
            have hpb : p = b := (List.cons_eq_cons.mp heq).1
            have hps : ps = t ++ (ps.foldl keepMin p) :: l2 :=
              (List.cons_eq_cons.mp heq).2
            have hmp : (ps.foldl keepMin p).pos < p.pos := by
              have hmb := h1 b (by simp)
              rwa [← hpb] at hmb
            refine ⟨a :: p :: t, l2, ?_, ?_, h2⟩
            · simp only [List.cons_append]
              rw [← hps]
            · intro x hx
              rcases List.mem_cons.mp hx with hx | hx
              · subst hx; exact lt_trans hmp hp
              · rcases List.mem_cons.mp hx with hx | hx
                · subst hx; exact hmp
                · exact h1 x (by simp [hx])

/-- The head of the sorted group is a member of the group attaining the
minimal `pos`. -/
theorem sortByPos_head_min (a : Position) (l : List Position) :
    (l.foldl keepMin a) ∈ a :: l ∧
      ∀ q ∈ a :: l, (l.foldl keepMin a).pos ≤ q.pos := by
  obtain ⟨l1, l2, heq, h1, h2⟩ := foldl_keepMin_decomp l a
  constructor
  · rw [heq]; exact List.mem_append.mpr (Or.inr (by simp))
  · intro q hq
    rw [heq] at hq
    rcases List.mem_append.mp hq with hq | hq
    · exact le_of_lt (h1 q hq)
    · rcases List.mem_cons.mp hq with hq | hq
      · rw [hq]
      · exact h2 q hq

/-! ### Grouping lemmas -/

/-- The rows of the table carrying a given identity key, in table order:
the value the grouping dict ends up holding at that key. -/
def keyFilter (l : List Position) (k : GroupKey) : List Position :=
  l.filter (fun q => decide (group_key q = k))

theorem keyFilter_append_single (l : List Position) (p : Position)
    (k : GroupKey) :
    keyFilter (l ++ [p]) k =
      keyFilter l k ++ (if group_key p = k then [p] else []) := by
  simp only [keyFilter, List.filter_append]
  congr 1
  by_cases h : group_key p = k
  · simp [h]
  · simp [h]

theorem insertGrouped_keys (G : List (GroupKey × List Position))
    (p : Position) :
    (insertGrouped G p).map Prod.fst =
      if group_key p ∈ G.map Prod.fst then G.map Prod.fst
      else G.map Prod.fst ++ [group_key p] := by
  induction G with
  | nil => simp [insertGrouped]
  | cons g rest ih =>
      obtain ⟨k, ps⟩ := g
      simp only [insertGrouped]
      by_cases h : k = group_key p
      · rw [if_pos h]
        simp [h]
      · rw [if_neg h]
        simp only [List.map_cons, ih, List.mem_cons]
        have hne : ¬ group_key p = k := fun hk => h hk.symm
        by_cases hmem : group_key p ∈ rest.map Prod.fst
        · simp [hmem, hne]
        · simp [hmem, hne]

theorem insertGrouped_nodup_keys {G : List (GroupKey × List Position)}
    (p : Position) (h : (G.map Prod.fst).Nodup) :
    ((insertGrouped G p).map Prod.fst).Nodup := by
  rw [insertGrouped_keys]
  by_cases hmem : group_key p ∈ G.map Prod.fst
  · rwa [if_pos hmem]
  · rw [if_neg hmem]
    simp [List.nodup_append, h, hmem]

theorem insertGrouped_mono_keys {G : List (GroupKey × List Position)}
    (p : Position) :
    group_key p ∈ (insertGrouped G p).map Prod.fst ∧
      ∀ k ∈ G.map Prod.fst, k ∈ (insertGrouped G p).map Prod.fst := by
  rw [insertGrouped_keys]
  by_cases hmem : group_key p ∈ G.map Prod.fst
  · rw [if_pos hmem]
    exact ⟨hmem, fun k hk => hk⟩
  · rw [if_neg hmem]
    exact ⟨by simp, fun k hk => by simp [hk]⟩

theorem insertGrouped_filter {G : List (GroupKey × List Position)}
    {p : Position} {l : List Position}
    (hfil : ∀ g ∈ G, g.2 = keyFilter l g.1)
    (hnod : (G.map Prod.fst).Nodup)
    (hnew : group_key p ∉ G.map Prod.fst → keyFilter l (group_key p) = []) :
    ∀ g ∈ insertGrouped G p, g.2 = keyFilter (l ++ [p]) g.1 := by
  induction G generalizing l with
  | nil =>
      intro g hg
      simp only [insertGrouped, List.mem_singleton] at hg
      subst hg
      rw [keyFilter_append_single, hnew (by simp), if_pos rfl]
      simp
  | cons g0 rest ih =>
      obtain ⟨k, ps⟩ := g0
      intro g hg
      simp only [insertGrouped] at hg
      by_cases h : k = group_key p
      · rw [if_pos h] at hg
        rcases List.mem_cons.mp hg with hg | hg
        · subst hg
          rw [keyFilter_append_single]
          simp only [h, if_pos rfl]
          have := hfil (k, ps) (by simp)
          simp only at this
          rw [this, h]
          simp
        · have hval := hfil g (List.mem_cons_of_mem _ hg)
          rw [keyFilter_append_single, hval]
          have hkne : group_key p ≠ g.1 := by
            intro hk
            have hg1 : g.1 ∈ rest.map Prod.fst :=
              List.mem_map.mpr ⟨g, hg, rfl⟩
            have hknotin : k ∉ rest.map Prod.fst :=
              (List.nodup_cons.mp (by simpa using hnod)).1
            rw [← hk, ← h] at hg1
            exact hknotin hg1
          rw [if_neg hkne]
          simp
      · rw [if_neg h] at hg
        rcases List.mem_cons.mp hg with hg | hg
        · subst hg
          rw [keyFilter_append_single]
          have := hfil (k, ps) (by simp)
          simp only at this
          have hkne : group_key p ≠ k := fun hk => h hk.symm
          rw [if_neg hkne, this]
          simp
        · refine ih (fun g' hg' => hfil g' (List.mem_cons_of_mem _ hg'))
            (List.nodup_cons.mp (by simpa using hnod)).2 ?_ g hg
          intro hnotin
          refine hnew ?_
          simp only [List.map_cons, List.mem_cons]
          rintro (hk | hk)
          · exact (fun hkk => h hkk.symm) hk
          · exact hnotin hk

/-- Invariants of the grouping fold: every dict entry's value is exactly the
rows of the table with that key, keys are unique, and every row's key has
an entry. -/
theorem grouped_spec (l : List Position) :
    (∀ g ∈ l.foldl insertGrouped [], g.2 = keyFilter l g.1) ∧
      ((l.foldl insertGrouped []).map Prod.fst).Nodup ∧
      (∀ q ∈ l, group_key q ∈ (l.foldl insertGrouped []).map Prod.fst) := by
  induction l using List.reverseRecOn with
  | nil => exact ⟨by simp, by simp, by simp⟩
  | append_singleton l a ih =>
      obtain ⟨hfil, hnod, hcov⟩ := ih
      have hfold : (l ++ [a]).foldl insertGrouped [] =
          insertGrouped (l.foldl insertGrouped []) a := by
        rw [List.foldl_append]
        rfl
      have hnew : group_key a ∉ (l.foldl insertGrouped []).map Prod.fst →
          keyFilter l (group_key a) = [] := by
        intro hnot
        refine List.filter_eq_nil_iff.mpr ?_
        intro q hq
        simp only [decide_eq_true_eq]
        intro hqk
        exact hnot (hqk ▸ hcov q hq)
      refine ⟨?_, ?_, ?_⟩
      · rw [hfold]
        exact insertGrouped_filter hfil hnod hnew
      · rw [hfold]
        exact insertGrouped_nodup_keys a hnod
      · intro q hq
        rw [hfold]
        rcases List.mem_append.mp hq with hq | hq
        · exact (insertGrouped_mono_keys a).2 _ (hcov q hq)
        · have : q = a := List.mem_singleton.mp hq
          subst this
          exact (insertGrouped_mono_keys q).1

theorem mem_find_duplicates {l : List Position}
    {g : GroupKey × List Position} (hg : g ∈ find_duplicates l) :
    g.2 = keyFilter l g.1 ∧ 1 < g.2.length := by
  unfold find_duplicates at hg
  have h := List.mem_filter.mp hg
  refine ⟨(grouped_spec l).1 g h.1, ?_⟩
  simpa using h.2

theorem find_duplicates_member {l : List Position}
    {g : GroupKey × List Position} (hg : g ∈ find_duplicates l)
    {p : Position} (hp : p ∈ g.2) : p ∈ l ∧ group_key p = g.1 := by
  have h := (mem_find_duplicates hg).1
  rw [h] at hp
  have := List.mem_filter.mp hp
  exact ⟨this.1, by simpa using this.2⟩

theorem find_duplicates_complete {l : List Position} {k : GroupKey}
    (h : 1 < (keyFilter l k).length) :
    (k, keyFilter l k) ∈ find_duplicates l := by
  have hne : keyFilter l k ≠ [] := by
    intro hk
    rw [hk] at h
    simp at h
  obtain ⟨q, hq⟩ := List.exists_mem_of_ne_nil _ hne
  have hql : q ∈ l := List.mem_of_mem_filter hq
  have hqk : group_key q = k := by
    have := (List.mem_filter.mp hq).2
    simpa using this
  have hkin : k ∈ (l.foldl insertGrouped []).map Prod.fst :=
    hqk ▸ (grouped_spec l).2.2 q hql
  obtain ⟨g, hgmem, hgk⟩ := List.mem_map.mp hkin
  have hgval : g.2 = keyFilter l k := hgk ▸ (grouped_spec l).1 g hgmem
  have hgeq : g = (k, keyFilter l k) := by
    obtain ⟨gk, gv⟩ := g
    simp only at hgk hgval
    rw [hgk, hgval]
  rw [← hgeq]
  unfold find_duplicates
  refine List.mem_filter.mpr ⟨hgmem, ?_⟩
  simp [hgval, h]

theorem find_duplicates_eq_nil {l : List Position}
    (h : ∀ k, (keyFilter l k).length ≤ 1) : find_duplicates l = [] := by
  unfold find_duplicates
  refine List.filter_eq_nil_iff.mpr ?_
  intro g hg
  have := (grouped_spec l).1 g hg
  simp only [decide_eq_true_eq, not_lt]
  rw [this]
  exact h g.1

/-! ### Run-loop lemmas -/

theorem processGroups_fst_congr :
    ∀ (gs : List (GroupKey × List Position)) (dr1 dr2 : Bool) (m d : Nat)
      (ids1 ids2 : List Nat),
      (processGroups dr1 gs m d ids1).1 = (processGroups dr2 gs m d ids2).1 := by
  intro gs
  induction gs with
  | nil => intro dr1 dr2 m d ids1 ids2; rfl
  | cons g rest ih =>
      intro dr1 dr2 m d ids1 ids2
      obtain ⟨gk, ps⟩ := g
      simp only [processGroups]
      by_cases h1 : ps.length ≤ 1
      · rw [if_pos h1, if_pos h1]
        exact ih dr1 dr2 m d ids1 ids2
      · rw [if_neg h1, if_neg h1]
        by_cases h2 : 0 < ((sortByPos ps).tail.filter (fun p => p.is_admin)).length
        · rw [if_pos h2, if_pos h2]
        · rw [if_neg h2, if_neg h2]
          by_cases hd1 : dr1 = true
          · rw [if_pos hd1]
            by_cases hd2 : dr2 = true
            · rw [if_pos hd2]
              exact ih dr1 dr2 _ _ _ _
            · rw [if_neg hd2]
              exact ih dr1 dr2 _ _ _ _
          · rw [if_neg hd1]
            by_cases hd2 : dr2 = true
            · rw [if_pos hd2]
              exact ih dr1 dr2 _ _ _ _
            · rw [if_neg hd2]
              exact ih dr1 dr2 _ _ _ _

theorem processGroups_dry_snd :
    ∀ (gs : List (GroupKey × List Position)) (m d : Nat) (ids : List Nat),
      (processGroups true gs m d ids).2 = ids := by
  intro gs
  induction gs with
  | nil => intro m d ids; rfl
  | cons g rest ih =>
      intro m d ids
      obtain ⟨gk, ps⟩ := g
      simp only [processGroups]
      by_cases h1 : ps.length ≤ 1
      · rw [if_pos h1]
        exact ih m d ids
      · rw [if_neg h1]
        by_cases h2 : 0 < ((sortByPos ps).tail.filter (fun p => p.is_admin)).length
        · rw [if_pos h2]
        · rw [if_neg h2, if_pos trivial]
          exact ih _ _ ids

theorem processGroups_false_ok_snd :
    ∀ (gs : List (GroupKey × List Position)) (m d : Nat) (ids : List Nat)
      (r : Nat × Nat),
      (processGroups false gs m d ids).1 = .ok r →
      (processGroups false gs m d ids).2 = ids ++ deletedPlan gs := by
  intro gs
  induction gs with
  | nil => intro m d ids r _; simp [processGroups, deletedPlan]
  | cons g rest ih =>
      intro m d ids r hok
      obtain ⟨gk, ps⟩ := g
      simp only [processGroups, deletedPlan] at hok ⊢
      by_cases h1 : ps.length ≤ 1
      · simp only [if_pos h1] at hok ⊢
        exact ih m d ids r hok
      · simp only [if_neg h1] at hok ⊢
        by_cases h2 : 0 < ((sortByPos ps).tail.filter (fun p => p.is_admin)).length
        · rw [if_pos h2] at hok
          simp at hok
        · simp only [if_neg h2] at hok ⊢
          rw [if_neg (by simp : ¬ (false = true))] at hok ⊢
          rw [ih _ _ _ r hok, List.append_assoc]

theorem mem_deletedPlan :
    ∀ (gs : List (GroupKey × List Position)) (i : Nat),
      i ∈ deletedPlan gs ↔
        ∃ g ∈ gs, 1 < g.2.length ∧ ∃ q ∈ (sortByPos g.2).tail, q.id = i := by
  intro gs
  induction gs with
  | nil => intro i; simp [deletedPlan]
  | cons g rest ih =>
      intro i
      obtain ⟨gk, ps⟩ := g
      simp only [deletedPlan]
      by_cases h1 : ps.length ≤ 1
      · rw [if_pos h1]
        rw [ih i]
        constructor
        · rintro ⟨g', hg', hlen, hq⟩
          exact ⟨g', List.mem_cons_of_mem _ hg', hlen, hq⟩
        · rintro ⟨g', hg', hlen, hq⟩
          rcases List.mem_cons.mp hg' with hg' | hg'
          · subst hg'
            simp only at hlen
            omega
          · exact ⟨g', hg', hlen, hq⟩
      · rw [if_neg h1]
        rw [List.mem_append, ih i]
        constructor
        · rintro (hmem | ⟨g', hg', hlen, hq⟩)
          · obtain ⟨q, hq, hqi⟩ := List.mem_map.mp hmem
            exact ⟨(gk, ps), by simp, by simpa using Nat.lt_of_not_le h1,
              q, hq, hqi⟩
          · exact ⟨g', List.mem_cons_of_mem _ hg', hlen, hq⟩
        · rintro ⟨g', hg', hlen, q, hq, hqi⟩
          rcases List.mem_cons.mp hg' with hg' | hg'
          · subst hg'
            exact Or.inl (List.mem_map.mpr ⟨q, hq, hqi⟩)
          · exact Or.inr ⟨g', hg', hlen, q, hq, hqi⟩

theorem processGroups_ok_no_admin :
    ∀ (gs : List (GroupKey × List Position)) (dr : Bool) (m d : Nat)
      (ids : List Nat) (r : Nat × Nat),
      (processGroups dr gs m d ids).1 = .ok r →
      ∀ g ∈ gs, 1 < g.2.length →
        ∀ p ∈ (sortByPos g.2).tail, p.is_admin = false := by
  intro gs
  induction gs with
  | nil => intro dr m d ids r _ g hg; simp at hg
  | cons g0 rest ih =>
      intro dr m d ids r hok g hg hlen p hp
      obtain ⟨gk, ps⟩ := g0
      simp only [processGroups] at hok
      by_cases h1 : ps.length ≤ 1
      · rw [if_pos h1] at hok
        rcases List.mem_cons.mp hg with hg | hg
        · subst hg
          simp only at hlen
          omega
        · exact ih dr m d ids r hok g hg hlen p hp
      · rw [if_neg h1] at hok
        by_cases h2 : 0 < ((sortByPos ps).tail.filter (fun q => q.is_admin)).length
        · rw [if_pos h2] at hok
          simp at hok
        · rw [if_neg h2] at hok
          have hnil : (sortByPos ps).tail.filter (fun q => q.is_admin) = [] := by
            have : ((sortByPos ps).tail.filter (fun q => q.is_admin)).length = 0 := by
              omega
            exact List.eq_nil_of_length_eq_zero this
          rcases List.mem_cons.mp hg with hg | hg
          · subst hg
            have := List.filter_eq_nil_iff.mp hnil p hp
            simpa using this
          · by_cases hd : dr = true
            · rw [if_pos hd] at hok
              exact ih dr _ _ _ r hok g hg hlen p hp
            · rw [if_neg hd] at hok
              exact ih dr _ _ _ r hok g hg hlen p hp

theorem processGroups_error_at :
    ∀ (pre : List (GroupKey × List Position)) (g : GroupKey × List Position)
      (post : List (GroupKey × List Position)) (dr : Bool) (m d : Nat)
      (ids : List Nat),
      (∀ g' ∈ pre, 1 < g'.2.length →
        ((sortByPos g'.2).tail.filter (fun p => p.is_admin)).length = 0) →
      1 < g.2.length →
      0 < ((sortByPos g.2).tail.filter (fun p => p.is_admin)).length →
      (processGroups dr (pre ++ g :: post) m d ids).1 =
        .error ⟨g.1, ((sortByPos g.2).tail.filter (fun p => p.is_admin)).length⟩ := by
  intro pre
  induction pre with
  | nil =>
      intro g post dr m d ids _ hlen hadm
      obtain ⟨gk, ps⟩ := g
      simp only [List.nil_append, processGroups]
      rw [if_neg (by simp only at hlen; omega), if_pos hadm]
  | cons g0 pre' ih =>
      intro g post dr m d ids hpre hlen hadm
      obtain ⟨gk0, ps0⟩ := g0
      simp only [List.cons_append, processGroups]
      by_cases h1 : ps0.length ≤ 1
      · rw [if_pos h1]
        exact ih g post dr m d ids
          (fun g' hg' => hpre g' (List.mem_cons_of_mem _ hg')) hlen hadm
      · rw [if_neg h1]
        have hclean : ((sortByPos ps0).tail.filter (fun p => p.is_admin)).length = 0 :=
          hpre (gk0, ps0) (by simp) (by simpa using Nat.lt_of_not_le h1)
        rw [if_neg (by omega)]
        by_cases hd : dr = true
        · rw [if_pos hd]
          exact ih g post dr _ _ _
            (fun g' hg' => hpre g' (List.mem_cons_of_mem _ hg')) hlen hadm
        · rw [if_neg hd]
          exact ih g post dr _ _ _
            (fun g' hg' => hpre g' (List.mem_cons_of_mem _ hg')) hlen hadm

theorem processGroups_ok_counts :
    ∀ (gs : List (GroupKey × List Position)) (dr : Bool) (m d : Nat)
      (ids : List Nat) (r : Nat × Nat),
      (∀ g ∈ gs, 1 < g.2.length) →
      (processGroups dr gs m d ids).1 = .ok r →
      r.1 = m + gs.length ∧
        r.2 = d + (gs.map (fun g => g.2.length - 1)).sum := by
  intro gs
  induction gs with
  | nil =>
      intro dr m d ids r _ hok
      simp only [processGroups] at hok
      have : r = (m, d) := by
        cases hok
        rfl
      subst this
      simp
  | cons g0 rest ih =>
      intro dr m d ids r hbig hok
      obtain ⟨gk, ps⟩ := g0
      simp only [processGroups] at hok
      have hlen : 1 < ps.length := by simpa using hbig (gk, ps) (by simp)
      rw [if_neg (by omega)] at hok
      by_cases h2 : 0 < ((sortByPos ps).tail.filter (fun q => q.is_admin)).length
      · rw [if_pos h2] at hok
        simp at hok
      · rw [if_neg h2] at hok
        have htail : (sortByPos ps).tail.length = ps.length - 1 := by
          rw [List.length_tail, sortByPos_length]
        have hrest : ∀ g ∈ rest, 1 < g.2.length :=
          fun g hg => hbig g (List.mem_cons_of_mem _ hg)
        have hstep : ∀ ids' : List Nat,
            (processGroups dr rest (m + 1) (d + (sortByPos ps).tail.length) ids').1 = .ok r →
            r.1 = m + (rest.length + 1) ∧
              r.2 = d + ((ps.length - 1) + (rest.map (fun g => g.2.length - 1)).sum) := by
          intro ids' hok'
          obtain ⟨hm, hd⟩ := ih dr _ _ ids' r hrest hok'
          constructor
          · omega
          · rw [hd, htail]
            omega
        by_cases hd : dr = true
        · rw [if_pos hd] at hok
          have := hstep _ hok
          simpa using this
        · rw [if_neg hd] at hok
          have := hstep _ hok
          simpa using this

/-! ### Helper lemmas about the whole run -/

theorem handle_of_error {dr : Bool} {state : List Position} {v : Violation}
    {ids : List Nat}
    (h : processGroups dr (find_duplicates state) 0 0 [] = (.error v, ids)) :
    handle dr state = (.error v, state) := by
  unfold handle
  rw [h]

theorem handle_of_ok {dr : Bool} {state : List Position} {r : Nat × Nat}
    {ids : List Nat}
    (h : processGroups dr (find_duplicates state) 0 0 [] = (.ok r, ids)) :
    handle dr state = (.ok r, if dr then state
      else state.filter (fun p => ! decide (p.id ∈ ids))) := by
  unfold handle
  rw [h]

theorem processGroups_fst_of_handle_ok {dr : Bool} {state : List Position}
    {r : Nat × Nat} (h : (handle dr state).1 = .ok r) :
    (processGroups dr (find_duplicates state) 0 0 []).1 = .ok r := by
  unfold handle at h
  rcases hpair : processGroups dr (find_duplicates state) 0 0 [] with ⟨res, ids⟩
  rw [hpair] at h
  cases res with
  | error v => simp at h
  | ok s => simpa using h

theorem two_le_countP_of_lt :
    ∀ (l : List Position) (pr : Position → Bool) (i j : Fin l.length),
      i.val < j.val → pr (l.get i) = true → pr (l.get j) = true →
      2 ≤ l.countP pr := by
  intro l
  induction l with
  | nil => intro pr i _ _ _ _; exact absurd i.isLt (by simp)
  | cons a t ih =>
      intro pr i j hij hi hj
      obtain ⟨iv, hiv⟩ := i
      obtain ⟨jv, hjv⟩ := j
      simp only at hij
      cases iv with
      | zero =>
          cases jv with
          | zero => omega
          | succ jv' =>
              have hjv' : jv' < t.length := by simpa using hjv
              have hjmem : t.get ⟨jv', hjv'⟩ ∈ t := List.get_mem t _ _
              have h1 : 0 < t.countP pr :=
                List.countP_pos_iff.mpr ⟨_, hjmem, hj⟩
              have hia : pr a = true := hi
              rw [List.countP_cons, hia, if_pos rfl]
              omega
      | succ iv' =>
          cases jv with
          | zero => omega
          | succ jv' =>
              have hiv' : iv' < t.length := by simpa using hiv
              have hjv' : jv' < t.length := by simpa using hjv
              have h2 := ih pr ⟨iv', hiv'⟩ ⟨jv', hjv'⟩ (show iv' < jv' by omega) hi hj
              rw [List.countP_cons]
              omega

theorem length_le_one_of_nodup_all_eq {l : List Position} {s : Position}
    (hnd : l.Nodup) (hall : ∀ x ∈ l, x = s) : l.length ≤ 1 := by
  cases l with
  | nil => simp
  | cons a t =>
      have ha : a = s := hall a (by simp)
      have ht : t = [] := by
        refine List.eq_nil_iff_forall_not_mem.mpr ?_
        intro x hx
        have hxs : x = s := hall x (List.mem_cons_of_mem _ hx)
        have hanotin : a ∉ t := (List.nodup_cons.mp hnd).1
        rw [hxs, ← ha] at hx
        exact hanotin hx
      subst ht
      simp

theorem pairwise_key_ne_of_counts {l : List Position}
    (h : ∀ k, (keyFilter l k).length ≤ 1) :
    l.Pairwise (fun p q => group_key p ≠ group_key q) := by
  induction l with
  | nil => simp
  | cons a t ih =>
      refine List.pairwise_cons.mpr ⟨?_, ?_⟩
      · intro b hb hk
        have hbfil : b ∈ keyFilter t (group_key a) := by
          refine List.mem_filter.mpr ⟨hb, ?_⟩
          simp [hk]
        have h1 : 1 ≤ (keyFilter t (group_key a)).length :=
          List.length_pos.mpr (fun hnil => by rw [hnil] at hbfil; simp at hbfil)
        have h2 : keyFilter (a :: t) (group_key a) =
            a :: keyFilter t (group_key a) := by
          simp [keyFilter]
        have := h (group_key a)
        rw [h2] at this
        simp only [List.length_cons] at this
        omega
      · refine ih ?_
        intro k
        have hle : (keyFilter t k).length ≤ (keyFilter (a :: t) k).length := by
          simp only [keyFilter, List.filter_cons]
          by_cases hp : decide (group_key a = k) = true
          · rw [if_pos hp]
            simp
          · rw [if_neg hp]
        exact le_trans hle (h k)

theorem filter_not_mem_nil (l : List Position) :
    l.filter (fun p => ! decide (p.id ∈ ([] : List Nat))) = l := by
  refine List.filter_eq_self.mpr ?_
  intro a _
  simp

/-! ### Concrete tables used as witnesses -/

/-- Row id 2, duplicate key, rank 5, listed first. -/
def cexA : Position := ⟨2, 1, 1, "Fall", 2024, 5, false⟩

/-- Row id 1, same key and same rank as `cexA`, listed second. -/
def cexB : Position := ⟨1, 1, 1, "Fall", 2024, 5, false⟩

def vB1 : Position := ⟨4, 2, 2, "B", 2023, 5, false⟩
def vB2 : Position := ⟨5, 2, 2, "B", 2023, 6, false⟩
def vA1 : Position := ⟨1, 1, 1, "A", 2023, 3, false⟩
def vA2 : Position := ⟨2, 1, 1, "A", 2023, 1, false⟩
def vA3 : Position := ⟨3, 1, 1, "A", 2023, 2, true⟩

/-- A table with one clean duplicate group (ids 4, 5) followed by a group
whose deletion candidates include the protected row id 3. -/
def exViol : List Position := [vB1, vB2, vA1, vA2, vA3]

def cA1 : Position := ⟨1, 1, 1, "A", 2023, 3, false⟩
def cA2 : Position := ⟨2, 1, 1, "A", 2023, 1, true⟩
def cA3 : Position := ⟨3, 1, 1, "A", 2023, 2, false⟩
def cB1 : Position := ⟨4, 2, 1, "A", 2023, 1, false⟩

/-- A violation-free table: one duplicate group of three rows whose
survivor (id 2, minimal rank) is itself protected, plus a singleton key. -/
def exClean : List Position := [cA1, cA2, cA3, cB1]

/-! ### The claims -/

/-- C4: for every input table, simulation (dry-run) mode returns exactly the
same outcome (violation or counters, built from the same groups and
survivors by the same selection logic) as mutating mode, and leaves the
table unchanged. -/
theorem C4_simulation_parity (state : List Position) :
    (handle true state).1 = (handle false state).1 ∧
      (handle true state).2 = state := by
  have hfst := processGroups_fst_congr (find_duplicates state) true false 0 0 [] []
  rcases hT : processGroups true (find_duplicates state) 0 0 [] with ⟨resT, idsT⟩
  rcases hF : processGroups false (find_duplicates state) 0 0 [] with ⟨resF, idsF⟩
  rw [hT, hF] at hfst
  have hres : resT = resF := hfst
  subst hres
  cases resT with
  | error v =>
      rw [handle_of_error hT, handle_of_error hF]
      exact ⟨rfl, rfl⟩
  | ok r =>
      rw [handle_of_ok hT, handle_of_ok hF]
      exact ⟨rfl, by simp⟩

/-- C5: two rows (at distinct table indices) belong to a common duplicate
group iff their identity keys are equal, and every group in the duplicate
set has more than one row. -/
theorem C5_grouping_correct (state : List Position) :
    (∀ i j : Fin state.length, i ≠ j →
      ((∃ g ∈ find_duplicates state,
          state.get i ∈ g.2 ∧ state.get j ∈ g.2) ↔
        group_key (state.get i) = group_key (state.get j))) ∧
      ∀ g ∈ find_duplicates state, 1 < g.2.length := by
  constructor
  · intro i j hij
    constructor
    · rintro ⟨g, hg, hi, hj⟩
      rw [(find_duplicates_member hg hi).2, (find_duplicates_member hg hj).2]
    · intro hkey
      have hpri : decide (group_key (state.get i) = group_key (state.get i))
          = true := by simp
      have hprj : decide (group_key (state.get j) = group_key (state.get i))
          = true := by rw [← hkey]; simp
      have hvne : i.val ≠ j.val := fun h => hij (Fin.ext h)
      have h2 : 2 ≤ state.countP
          (fun q => decide (group_key q = group_key (state.get i))) := by
        rcases Nat.lt_or_gt_of_ne hvne with h | h
        · exact two_le_countP_of_lt state _ i j h hpri hprj
        · exact two_le_countP_of_lt state _ j i h hprj hpri
      have hlen : 1 < (keyFilter state (group_key (state.get i))).length := by
        have := List.countP_eq_length_filter
          (fun q => decide (group_key q = group_key (state.get i))) state
        unfold keyFilter
        omega
      refine ⟨(group_key (state.get i),
        keyFilter state (group_key (state.get i))),
        find_duplicates_complete hlen, ?_, ?_⟩
      · exact List.mem_filter.mpr ⟨state.get_mem i i.isLt, hpri⟩
      · exact List.mem_filter.mpr ⟨state.get_mem j j.isLt, hprj⟩
  · intro g hg
    exact (mem_find_duplicates hg).2

/-- C9: the survivor of every duplicate group is the first row, in the
order the rows were enumerated from the table, among those of minimal
rank: all rows before it in the group have strictly greater `pos` and all
rows after it have greater-or-equal `pos`. -/
theorem C9_survivor_first_in_order (state : List Position)
    (g : GroupKey × List Position) (hg : g ∈ find_duplicates state) :
    ∃ s l1 l2, (sortByPos g.2).head? = some s ∧ g.2 = l1 ++ s :: l2 ∧
      (∀ x ∈ l1, s.pos < x.pos) ∧ (∀ x ∈ l2, s.pos ≤ x.pos) := by
  have hlen := (mem_find_duplicates hg).2
  obtain ⟨a, l, hal⟩ : ∃ a l, g.2 = a :: l := by
    cases hgl : g.2 with
    | nil => rw [hgl] at hlen; simp at hlen
    | cons a l => exact ⟨a, l, rfl⟩
  rw [hal]
  obtain ⟨l1, l2, heq, h1, h2⟩ := foldl_keepMin_decomp l a
  exact ⟨l.foldl keepMin a, l1, l2, sortByPos_head a l, heq, h1, h2⟩

/-- C2 (amended): the survivor of every duplicate group is a member of the
group attaining the minimal rank; the tie-break on equal ranks is the
enumeration order of the rows, not the minimum id — every row enumerated
before the survivor has strictly greater rank, every row after it has
greater-or-equal rank, so the survivor is the first minimal-rank row in
enumeration order; and any run whose group holds the identical row
enumeration chooses the same survivor. -/
theorem C2_amended_minimum_rank (state : List Position)
    (g : GroupKey × List Position) (hg : g ∈ find_duplicates state) :
    ∃ s l1 l2, (sortByPos g.2).head? = some s ∧ s ∈ g.2 ∧
      (∀ p ∈ g.2, s.pos ≤ p.pos) ∧
      g.2 = l1 ++ s :: l2 ∧ (∀ x ∈ l1, s.pos < x.pos) ∧
      (∀ x ∈ l2, s.pos ≤ x.pos) ∧
      (∀ (state' : List Position) (g' : GroupKey × List Position),
        g' ∈ find_duplicates state' → g'.2 = g.2 →
        (sortByPos g'.2).head? = some s) := by
  have hlen := (mem_find_duplicates hg).2
  obtain ⟨a, l, hal⟩ : ∃ a l, g.2 = a :: l := by
    cases hgl : g.2 with
    | nil => rw [hgl] at hlen; simp at hlen
    | cons a l => exact ⟨a, l, rfl⟩
  rw [hal]
  obtain ⟨hmem, hmin⟩ := sortByPos_head_min a l
  obtain ⟨l1, l2, heq, h1, h2⟩ := foldl_keepMin_decomp l a
  refine ⟨l.foldl keepMin a, l1, l2, sortByPos_head a l, hmem, hmin, heq,
    h1, h2, ?_⟩
  intro state' g' _ hsame
  rw [hsame]
  exact sortByPos_head a l

/-- C2 (counterexample): on a group of two rows tying on rank, enumerated
with the larger id first, the chosen survivor is the first-enumerated row
(id 2), not the row with the minimum id (id 1) — refuting the claimed
minimum-id tie-break. -/
theorem C2_counterexample :
    ∃ g ∈ find_duplicates [cexA, cexB],
      (sortByPos g.2).head? = some cexA ∧ cexA.id = 2 ∧
        cexB ∈ g.2 ∧ cexB.pos = cexA.pos ∧ cexB.id = 1 := by
  decide

/-- C8: the protection check inspects only the deletion candidates (the
sorted group minus its head): a group whose survivor is itself protected
raises no violation and is merged normally, as long as no candidate is
protected. -/
theorem C8_survivor_protected_allowed (dr : Bool) (gk : GroupKey)
    (ps : List Position) (m d : Nat) (ids : List Nat) (s : Position)
    (hlen : 1 < ps.length) (hs : (sortByPos ps).head? = some s)
    (hadm : s.is_admin = true)
    (hcand : ∀ p ∈ (sortByPos ps).tail, p.is_admin = false) :
    (processGroups dr [(gk, ps)] m d ids).1 =
      .ok (m + 1, d + (sortByPos ps).tail.length) := by
  have hnil : (sortByPos ps).tail.filter (fun p => p.is_admin) = [] := by
    refine List.filter_eq_nil_iff.mpr ?_
    intro p hp
    simp [hcand p hp]
  simp only [processGroups]
  rw [if_neg (by omega), hnil, if_neg (by simp)]
  by_cases hd : dr = true
  · rw [if_pos hd]
  · rw [if_neg hd]

/-- C1: in either mode, no protected row is ever deleted (every protected
row of the table is still in the table after the run), and if any deletion
candidate of any duplicate group is protected the run reports a violation
and the table is left exactly as it was.  Primary keys are assumed unique,
as the database guarantees. -/
theorem C1_protection_invariant (dr : Bool) (state : List Position)
    (hnod : (state.map Position.id).Nodup) :
    (∀ p ∈ state, p.is_admin = true → p ∈ (handle dr state).2) ∧
      ((∃ g ∈ find_duplicates state, ∃ p ∈ (sortByPos g.2).tail,
          p.is_admin = true) →
        (∃ v, (handle dr state).1 = .error v) ∧
          (handle dr state).2 = state) := by
  rcases hP : processGroups dr (find_duplicates state) 0 0 [] with ⟨res, ids⟩
  cases res with
  | error v =>
      rw [handle_of_error hP]
      exact ⟨fun p hp _ => hp, fun _ => ⟨⟨v, rfl⟩, rfl⟩⟩
  | ok r =>
      have hfst : (processGroups dr (find_duplicates state) 0 0 []).1 = .ok r := by
        rw [hP]
      rw [handle_of_ok hP]
      constructor
      · intro p hp hadm
        by_cases hd : dr = true
        · rw [if_pos hd]
          exact hp
        · rw [if_neg hd]
          have hdr : dr = false := by
            cases dr
            · rfl
            · exact absurd rfl hd
          subst hdr
          have hids : ids = deletedPlan (find_duplicates state) := by
            have := processGroups_false_ok_snd (find_duplicates state) 0 0 [] r hfst
            rw [hP] at this
            simpa using this
          have hnotin : p.id ∉ ids := by
            intro hmem
            rw [hids] at hmem
            obtain ⟨g, hg, hglen, q, hq, hqid⟩ := (mem_deletedPlan _ _).mp hmem
            have hq2 : q ∈ g.2 := sortByPos_mem.mp (List.mem_of_mem_tail hq)
            have hqstate : q ∈ state := (find_duplicates_member hg hq2).1
            have hqp : q = p :=
              List.inj_on_of_nodup_map hnod hqstate hp hqid
            have hqadm : q.is_admin = false :=
              processGroups_ok_no_admin (find_duplicates state) false 0 0 []
                r hfst g hg hglen q hq
            rw [hqp, hadm] at hqadm
            simp at hqadm
          refine List.mem_filter.mpr ⟨hp, ?_⟩
          simp [hnotin]
      · rintro ⟨g, hg, p, hp, hadm⟩
        have hglen := (mem_find_duplicates hg).2
        have := processGroups_ok_no_admin (find_duplicates state) dr 0 0 []
          r hfst g hg hglen p hp
        rw [hadm] at this
        simp at this

/-- C3: in mutating mode, a violation reached after any number of earlier
groups were already merged rolls back the entire transaction: the run
errors and the table after the run is the table before the run. -/
theorem C3_atomic_rollback (state : List Position)
    (pre post : List (GroupKey × List Position))
    (g : GroupKey × List Position)
    (hsplit : find_duplicates state = pre ++ g :: post)
    (hpre : ∀ g' ∈ pre,
      ((sortByPos g'.2).tail.filter (fun p => p.is_admin)).length = 0)
    (hadm : 0 < ((sortByPos g.2).tail.filter (fun p => p.is_admin)).length) :
    (∃ v, (handle false state).1 = .error v) ∧
      (handle false state).2 = state := by
  have hgmem : g ∈ find_duplicates state := by
    rw [hsplit]
    exact List.mem_append.mpr (Or.inr (by simp))
  have hglen := (mem_find_duplicates hgmem).2
  have herr := processGroups_error_at pre g post false 0 0 []
    (fun g' hg' _ => hpre g' hg') hglen hadm
  rw [← hsplit] at herr
  rcases hP : processGroups false (find_duplicates state) 0 0 [] with ⟨res, ids⟩
  rw [hP] at herr
  have hres : res = .error ⟨g.1,
      ((sortByPos g.2).tail.filter (fun p => p.is_admin)).length⟩ := herr
  subst hres
  rw [handle_of_error hP]
  exact ⟨⟨_, rfl⟩, rfl⟩

/-- C7: in either mode, the run terminates at the first group whose
deletion candidates include a protected row, processing no later group,
and the reported violation carries that group's identity key and its
number of protected deletion candidates. -/
theorem C7_first_violation_reported (dr : Bool) (state : List Position)
    (pre post : List (GroupKey × List Position))
    (g : GroupKey × List Position)
    (hsplit : find_duplicates state = pre ++ g :: post)
    (hpre : ∀ g' ∈ pre,
      ((sortByPos g'.2).tail.filter (fun p => p.is_admin)).length = 0)
    (hadm : 0 < ((sortByPos g.2).tail.filter (fun p => p.is_admin)).length) :
    (handle dr state).1 = .error ⟨g.1,
      ((sortByPos g.2).tail.filter (fun p => p.is_admin)).length⟩ := by
  have hgmem : g ∈ find_duplicates state := by
    rw [hsplit]
    exact List.mem_append.mpr (Or.inr (by simp))
  have hglen := (mem_find_duplicates hgmem).2
  have herr := processGroups_error_at pre g post dr 0 0 []
    (fun g' hg' _ => hpre g' hg') hglen hadm
  rw [← hsplit] at herr
  rcases hP : processGroups dr (find_duplicates state) 0 0 [] with ⟨res, ids⟩
  rw [hP] at herr
  have hres : res = .error ⟨g.1,
      ((sortByPos g.2).tail.filter (fun p => p.is_admin)).length⟩ := herr
  subst hres
  rw [handle_of_error hP]

/-- C10: a violation-free run, in either mode, reports exactly one merged
group per duplicate group and a deletion count equal to the sum over the
duplicate groups of the group size minus one. -/
theorem C10_summary_counts (dr : Bool) (state : List Position)
    (r : Nat × Nat) (hok : (handle dr state).1 = .ok r) :
    r.1 = (find_duplicates state).length ∧
      r.2 = ((find_duplicates state).map (fun g => g.2.length - 1)).sum := by
  have hfst := processGroups_fst_of_handle_ok hok
  have := processGroups_ok_counts (find_duplicates state) dr 0 0 [] r
    (fun g hg => (mem_find_duplicates hg).2) hfst
  simpa using this

/-- C6: after a successful mutating run no two remaining rows share an
identity key, the duplicate set of the resulting table is empty, and a
second mutating run on the resulting table reports zero merges, zero
deletions and changes nothing. -/
theorem C6_idempotent (state : List Position)
    (hnod : (state.map Position.id).Nodup) (r : Nat × Nat)
    (hok : (handle false state).1 = .ok r) :
    ((handle false state).2).Pairwise
        (fun p q => group_key p ≠ group_key q) ∧
      find_duplicates ((handle false state).2) = [] ∧
      handle false ((handle false state).2) =
        (.ok (0, 0), (handle false state).2) := by
  have hfst := processGroups_fst_of_handle_ok hok
  rcases hP : processGroups false (find_duplicates state) 0 0 [] with ⟨res, ids⟩
  have hres : res = .ok r := by
    rw [hP] at hfst
    exact hfst
  subst hres
  have hids : ids = deletedPlan (find_duplicates state) := by
    have := processGroups_false_ok_snd (find_duplicates state) 0 0 [] r (by rw [hP])
    rw [hP] at this
    simpa using this
  have hfinal : (handle false state).2 =
      state.filter (fun p => ! decide (p.id ∈ ids)) := by
    rw [handle_of_ok hP]
    simp
  have hcount : ∀ k, (keyFilter ((handle false state).2) k).length ≤ 1 := by
    intro k
    rw [hfinal]
    have hcomm : keyFilter (state.filter (fun p => ! decide (p.id ∈ ids))) k
        = (keyFilter state k).filter (fun p => ! decide (p.id ∈ ids)) := by
      simp only [keyFilter]
      exact List.filter_comm _ _ _
    rw [hcomm]
    by_cases hbig : 1 < (keyFilter state k).length
    · have hgmem := find_duplicates_complete hbig
      obtain ⟨a, l, hal⟩ : ∃ a l, keyFilter state k = a :: l := by
        cases hfl : keyFilter state k with
        | nil => rw [hfl] at hbig; simp at hbig
        | cons a l => exact ⟨a, l, rfl⟩
      have hhead : (sortByPos (keyFilter state k)).head? =
          some (l.foldl keepMin a) := by
        rw [hal]
        exact sortByPos_head a l
      obtain ⟨bt, hbt⟩ : ∃ bt,
          sortByPos (keyFilter state k) = (l.foldl keepMin a) :: bt := by
        cases hsp : sortByPos (keyFilter state k) with
        | nil => rw [hsp] at hhead; simp at hhead
        | cons b bt' =>
            rw [hsp] at hhead
            simp only [List.head?_cons, Option.some.injEq] at hhead
            exact ⟨bt', by rw [hhead]⟩
      have hall : ∀ p ∈ (keyFilter state k).filter
          (fun p => ! decide (p.id ∈ ids)), p = l.foldl keepMin a := by
        intro p hp
        have hpfl : p ∈ keyFilter state k := List.mem_of_mem_filter hp
        have hpnotdel : p.id ∉ ids := by
          have := (List.mem_filter.mp hp).2
          simpa using this
        have hpsort : p ∈ (l.foldl keepMin a) :: bt := by
          rw [← hbt]
          exact sortByPos_mem.mpr hpfl
        rcases List.mem_cons.mp hpsort with h | h
        · exact h
        · exfalso
          apply hpnotdel
          rw [hids]
          refine (mem_deletedPlan _ _).mpr
            ⟨(k, keyFilter state k), hgmem, by simpa using hbig, p, ?_, rfl⟩
          have : (sortByPos (keyFilter state k)).tail = bt := by
            rw [hbt]
            rfl
          rw [this]
          exact h
      have hfnd : (keyFilter state k).Nodup := by
        have hsub : List.Sublist ((keyFilter state k).map Position.id)
            (state.map Position.id) :=
          (List.filter_sublist state).map Position.id
        exact List.Nodup.of_map _ (hsub.nodup hnod)
      exact length_le_one_of_nodup_all_eq
        ((List.filter_sublist _).nodup hfnd) hall
    · have hle : ((keyFilter state k).filter
          (fun p => ! decide (p.id ∈ ids))).length ≤
          (keyFilter state k).length :=
        (List.filter_sublist _).length_le
      omega
  have hnil : find_duplicates ((handle false state).2) = [] :=
    find_duplicates_eq_nil hcount
  refine ⟨pairwise_key_ne_of_counts hcount, hnil, ?_⟩
  have hP2 : processGroups false
      (find_duplicates ((handle false state).2)) 0 0 [] = (.ok (0, 0), []) := by
    rw [hnil]
    rfl
  rw [handle_of_ok hP2]
  rw [if_neg (by simp : ¬ (false = true)), filter_not_mem_nil]

/-! ### Witnesses: the claim theorems evaluated at the concrete tables -/

theorem C1_witness :
    (exViol.map Position.id).Nodup ∧
      ((∀ p ∈ exViol, p.is_admin = true → p ∈ (handle false exViol).2) ∧
        ((∃ g ∈ find_duplicates exViol, ∃ p ∈ (sortByPos g.2).tail,
            p.is_admin = true) →
          (∃ v, (handle false exViol).1 = .error v) ∧
            (handle false exViol).2 = exViol)) :=
  ⟨by decide, C1_protection_invariant false exViol (by decide)⟩

theorem C2_witness :
    ((1, 1, "Fall", 2024), [cexA, cexB]) ∈ find_duplicates [cexA, cexB] ∧
      ∃ s l1 l2, (sortByPos [cexA, cexB]).head? = some s ∧
        s ∈ [cexA, cexB] ∧ (∀ p ∈ [cexA, cexB], s.pos ≤ p.pos) ∧
        [cexA, cexB] = l1 ++ s :: l2 ∧ (∀ x ∈ l1, s.pos < x.pos) ∧
        (∀ x ∈ l2, s.pos ≤ x.pos) ∧
        (∀ (state' : List Position) (g' : GroupKey × List Position),
          g' ∈ find_duplicates state' → g'.2 = [cexA, cexB] →
          (sortByPos g'.2).head? = some s) :=
  ⟨by decide, C2_amended_minimum_rank [cexA, cexB]
    ((1, 1, "Fall", 2024), [cexA, cexB]) (by decide)⟩

theorem C3_witness :
    (find_duplicates exViol =
        [((2, 2, "B", 2023), [vB1, vB2])] ++
          ((1, 1, "A", 2023), [vA1, vA2, vA3]) :: [] ∧
      (processGroups false (find_duplicates exViol) 0 0 []).2 = [5]) ∧
      (∃ v, (handle false exViol).1 = .error v) ∧
        (handle false exViol).2 = exViol :=
  ⟨⟨by decide, by decide⟩,
    C3_atomic_rollback exViol [((2, 2, "B", 2023), [vB1, vB2])] []
      ((1, 1, "A", 2023), [vA1, vA2, vA3])
      (by decide) (by decide) (by decide)⟩

theorem C5_witness :
    ((⟨0, by decide⟩ : Fin exViol.length) ≠ ⟨1, by decide⟩) ∧
      ((∃ g ∈ find_duplicates exViol,
          exViol.get ⟨0, by decide⟩ ∈ g.2 ∧
            exViol.get ⟨1, by decide⟩ ∈ g.2) ↔
        group_key (exViol.get ⟨0, by decide⟩) =
          group_key (exViol.get ⟨1, by decide⟩)) :=
  ⟨by decide, (C5_grouping_correct exViol).1 ⟨0, by decide⟩ ⟨1, by decide⟩
    (by decide)⟩

theorem C6_witness :
    ((exClean.map Position.id).Nodup ∧
        (handle false exClean).1 = .ok (1, 2)) ∧
      ((handle false exClean).2).Pairwise
          (fun p q => group_key p ≠ group_key q) ∧
        find_duplicates ((handle false exClean).2) = [] ∧
        handle false ((handle false exClean).2) =
          (.ok (0, 0), (handle false exClean).2) :=
  ⟨⟨by decide, by rfl⟩, C6_idempotent exClean (by decide) (1, 2) (by rfl)⟩

theorem C7_witness :
    (find_duplicates exViol =
        [((2, 2, "B", 2023), [vB1, vB2])] ++
          ((1, 1, "A", 2023), [vA1, vA2, vA3]) :: []) ∧
      (handle true exViol).1 = .error ⟨(1, 1, "A", 2023), 1⟩ :=
  ⟨by decide,
    C7_first_violation_reported true exViol
      [((2, 2, "B", 2023), [vB1, vB2])] []
      ((1, 1, "A", 2023), [vA1, vA2, vA3])
      (by decide) (by decide) (by decide)⟩

theorem C8_witness :
    (1 < ([cA1, cA2, cA3] : List Position).length ∧
        (sortByPos [cA1, cA2, cA3]).head? = some cA2 ∧
        cA2.is_admin = true ∧
        ∀ p ∈ (sortByPos [cA1, cA2, cA3]).tail, p.is_admin = false) ∧
      (processGroups false [((1, 1, "A", 2023), [cA1, cA2, cA3])] 0 0 []).1 =
        .ok (0 + 1, 0 + (sortByPos [cA1, cA2, cA3]).tail.length) :=
  ⟨⟨by decide, by decide, by decide, by decide⟩,
    C8_survivor_protected_allowed false (1, 1, "A", 2023) [cA1, cA2, cA3]
      0 0 [] cA2 (by decide) (by decide) (by decide) (by decide)⟩

theorem C9_witness :
    (((1, 1, "Fall", 2024), [cexA, cexB]) ∈ find_duplicates [cexA, cexB]) ∧
      ∃ s l1 l2, (sortByPos [cexA, cexB]).head? = some s ∧
        [cexA, cexB] = l1 ++ s :: l2 ∧ (∀ x ∈ l1, s.pos < x.pos) ∧
        (∀ x ∈ l2, s.pos ≤ x.pos) :=
  ⟨by decide, C9_survivor_first_in_order [cexA, cexB]
    ((1, 1, "Fall", 2024), [cexA, cexB]) (by decide)⟩

theorem C10_witness :
    ((handle false exClean).1 = .ok (1, 2)) ∧
      (1 : Nat) = (find_duplicates exClean).length ∧
      (2 : Nat) =
        ((find_duplicates exClean).map (fun g => g.2.length - 1)).sum :=
  ⟨by rfl, C10_summary_counts false exClean (1, 2) (by rfl)⟩

end MergeDuplicatePositions
